import Mathlib

/-!
# PyStoreJSON: a shallow embedding of the row/column engine

This file embeds the row-store engine of `PyStoreJSONLib/PyStoreJSON.py`
(class `PyStoreJSONDB`) as executable Lean definitions and proves the
frozen specification claims about it.

Modelling conventions:
* A Python JSON row (a `dict`) is an ordered association list
  `Row := List (String × Value)`; insertion order is significant, keys of
  rows built by the library are unique.
* A table is the list of rows held in the backing JSON file.  File I/O
  (`_load` / `_save`) is the identity boundary: each operation takes the
  loaded table and returns the table that is written back, together with
  its Python return value.
* JSON scalars are the tagged union `Value` (null, bool, number, string);
  numbers are modelled as integers.  Python's cross-type `==` (where
  `True == 1`) is `pyEq`.
* Python's `sorted` is a stable sort; it is modelled with Mathlib's stable
  `insertionSort`, and `reverse=True` exactly as CPython implements it:
  reverse the list, sort ascending (stable), reverse the result.
-/

set_option maxHeartbeats 1000000

namespace PyStoreJSON

/-- A JSON scalar value as stored in a row: the tagged union
{null, boolean, number, string}, with numbers modelled as integers. -/
inductive Value where
  | null : Value
  | bool (b : Bool) : Value
  | num (n : Int) : Value
  | str (s : String) : Value
deriving DecidableEq

/-- A row: an ordered mapping from column name to scalar value,
modelled as an ordered association list (Python `dict`). -/
abbrev Row := List (String × Value)

/-- A table: the ordered list of rows of one JSON file. -/
abbrev Table := List Row

/-- The key sequence of a row (`row.keys()`). -/
def rkeys (r : Row) : List String := r.map Prod.fst

/-- Python `key in row`. -/
def hasKey (r : Row) (k : String) : Bool := r.any (fun kv => kv.1 == k)

/-- Python `row.get(key)` as an option: the value of the first entry
with key `k`, if any. -/
def dget (r : Row) (k : String) : Option Value :=
  (r.find? (fun kv => kv.1 == k)).map Prod.snd

/-- Python `row.get(key, None)` / `row.get(key)`: a missing key reads
as null. -/
def dgetD (r : Row) (k : String) : Value := (dget r k).getD Value.null

/-- Python `row[k] = v`: overwrite in place if the key is present
(keeping its position), otherwise append the new entry at the end. -/
def dinsert (r : Row) (k : String) (v : Value) : Row :=
  if hasKey r k then r.map (fun kv => if kv.1 == k then (k, v) else kv)
  else r ++ [(k, v)]

/-- Python `row.pop(k, None)`: remove the entry with key `k`. -/
def dpop (r : Row) (k : String) : Row := r.filter (fun kv => kv.1 != k)

/-- Python `row.update(patch)`: set each patch entry in order. -/
def dupdate (r : Row) (patch : Row) : Row :=
  patch.foldl (fun acc kv => dinsert acc kv.1 kv.2) r

/-- The numeric reading of a value: Python `bool` is an `int`
(`True == 1`, `False == 0`); strings and null have none. -/
def numView : Value → Option Int
  | .bool b => some (if b then 1 else 0)
  | .num n => some n
  | _ => none

/-- The string reading of a value. -/
def strView : Value → Option String
  | .str s => some s
  | _ => none

/-- Python `==` between stored scalar values: null equals only null,
numbers and booleans compare numerically (`True == 1`), strings compare
as strings, and every other cross-type comparison is `False`. -/
def pyEq (v w : Value) : Bool :=
  match v, w with
  | .null, .null => true
  | .str a, .str b => a == b
  | v, w =>
    match numView v, numView w with
    | some a, some b => a == b
    | _, _ => false

/-! ## The operations of `PyStoreJSONDB` -/

/-- A column is empty when its value is null or missing in every row
(the body of the `all(...)` test in `_prune_empty_columns`). -/
def emptyKey (data : Table) (k : String) : Bool :=
  data.all (fun r => dgetD r k == Value.null)

/-- `PyStoreJSONDB._prune_empty_columns`: on a nonempty table, remove
from every row each key whose value is null or missing in every row;
an empty table is returned unchanged. -/
def prune_empty_columns (data : Table) : Table :=
  if data.isEmpty then data
  else data.map (fun r => r.filter (fun kv => !emptyKey data kv.1))

/-- The union of all keys of a list of rows, in first-appearance order.
(The Python code keeps `all_keys` as a `set`; only membership in it is
observable apart from the hash-dependent order in which missing keys are
appended, which we fix as first-appearance order.) -/
def allKeys (rows : List Row) : List String :=
  ((rows.map rkeys).foldr (· ++ ·) []).dedup

/-- Add each key of `ks` that the row lacks, with value null
(`if key not in entry: entry[key] = None`, over `ks` in order). -/
def addMissing (ks : List String) (r : Row) : Row :=
  ks.foldl (fun acc k => if hasKey acc k then acc else acc ++ [(k, Value.null)]) r

/-- `PyStoreJSONDB.insert` (list form): collect the union of keys of the
existing and the incoming rows, complete every existing and incoming row
with null for the keys it lacks, and append the incoming rows. -/
def insert (data : Table) (rows : List Row) : Table :=
  let ks := allKeys (data ++ rows)
  data.map (addMissing ks) ++ rows.map (addMissing ks)

/-- A sequence of `insert` calls starting from the empty table. -/
def run (calls : List (List Row)) : Table := calls.foldl insert []

/-- `PyStoreJSONDB.find_by`: rows whose value at `key` (missing read as
null) is Python-equal to `value`, in table order. -/
def find_by (data : Table) (key : String) (value : Value) : Table :=
  data.filter (fun r => pyEq (dgetD r key) value)

/-- The keys of `updates` that occur in no row of `data`
(`set(updates.keys()) - existing_keys`), in first-appearance order. -/
def newKeysOf (data : Table) (ks : List String) : List String :=
  ks.dedup.filter (fun k => !data.any (fun r => hasKey r k))

/-- The schema-consistency pass of `update_by` / `batch_update_by`:
set each wholly new key to null on every row. -/
def addNullColumns (data : Table) (ks : List String) : Table :=
  data.map (fun r => ks.foldl (fun acc k => dinsert acc k Value.null) r)

/-- `PyStoreJSONDB.update_by`: add the wholly new patch keys as null to
every row, merge the patch into each row whose value at `key` equals
`value` (counting it), prune empty columns, and return the new table
together with the match count. -/
def update_by (data : Table) (key : String) (value : Value) (updates : Row) :
    Table × Nat :=
  let data1 := addNullColumns data (newKeysOf data (rkeys updates))
  let count := data1.countP (fun r => pyEq (dgetD r key) value)
  let data2 := data1.map (fun r => if pyEq (dgetD r key) value then dupdate r updates else r)
  (prune_empty_columns data2, count)

/-- One `(key, value, updates)` condition of `batch_update_by`. -/
abbrev Cond := String × Value × Row

/-- One condition pass of `batch_update_by`: merge the patch into every
row whose value at the key equals the value. -/
def applyCond (data : Table) (c : Cond) : Table :=
  data.map (fun r => if pyEq (dgetD r c.1) c.2.1 then dupdate r c.2.2 else r)

/-- The number of rows a condition matches on a table. -/
def condCount (data : Table) (c : Cond) : Nat :=
  data.countP (fun r => pyEq (dgetD r c.1) c.2.1)

/-- The schema-consistency pass of `batch_update_by`: the wholly new
keys of the union of all patches, set to null on every row. -/
def batchClosure (data : Table) (conds : List Cond) : Table :=
  addNullColumns data (newKeysOf data ((conds.map (fun c => rkeys c.2.2)).foldr (· ++ ·) []))

/-- `PyStoreJSONDB.batch_update_by` (list form): one closure pass for the
union of all patch keys, then each condition applied in order over the
same table (so later conditions see earlier merges), one prune at the
end; returns the table and the total of the per-condition match counts. -/
def batch_update_by (data : Table) (conds : List Cond) : Table × Nat :=
  let data1 := batchClosure data conds
  let res := conds.foldl (fun acc c => (applyCond acc.1 c, acc.2 + condCount acc.1 c)) (data1, 0)
  (prune_empty_columns res.1, res.2)

/-- `PyStoreJSONDB.delete_by`: keep the rows whose value at `key` is not
Python-equal to `value`, prune empty columns among the survivors, and
return the new table with the count `len(data) - len(new_data)`. -/
def delete_by (data : Table) (key : String) (value : Value) : Table × Nat :=
  let kept := data.filter (fun r => !pyEq (dgetD r key) value)
  (prune_empty_columns kept, data.length - kept.length)

/-- The body of `rename_key` on one row containing `old_key`:
`row[new_key] = row.pop(old_key)` (pop first, then set). -/
def renameRow (oldKey newKey : String) (r : Row) : Row :=
  dinsert (dpop r oldKey) newKey (dgetD r oldKey)

/-- `PyStoreJSONDB.rename_key`: rename `old_key` to `new_key` in every
row containing `old_key`; rows without it are untouched.  Returns the
resulting table state and the `renamed` flag (true iff some row had
`old_key`); the file is rewritten only when the flag is true, which
leaves the same table state either way. -/
def rename_key (data : Table) (oldKey newKey : String) : Table × Bool :=
  (data.map (fun r => if hasKey r oldKey then renameRow oldKey newKey r else r),
   data.any (fun r => hasKey r oldKey))

/-! ## `sort`

`PyStoreJSONDB.sort` calls `sorted(data, key=safe_sort_key, reverse=reverse)`
with `safe_sort_key(row) = (row.get(key) is None, row.get(key))`.  Python
compares these pairs lexicographically, so a null value (pair `(True, None)`)
is greater than every non-null value, two nulls are equal, and two non-null
values compare with Python `<`: numbers and booleans numerically, strings
lexicographically by code point.  Comparing a number against a string raises
`TypeError` (re-raised as `ValueError`); `sortable` detects exactly the
tables on which some such comparison is forced, and `sort` returns `none`
for them.  `valLt` totalises the unreachable number-versus-string branch as
number-below-string so that the sort order is a total preorder. -/

/-- Python `<` between non-null scalar values, totalised: numbers and
booleans compare numerically, strings by code point, and the
cross-class number/string branch (which Python cannot reach without
raising, see `sortable`) is ordered number-below-string. -/
def valLt (v w : Value) : Bool :=
  match numView v, numView w with
  | some a, some b => a < b
  | some _, none => (strView w).isSome
  | none, _ =>
    match strView v, strView w with
    | some a, some b => a < b
    | _, _ => false

/-- The comparison `safe_sort_key(r) < safe_sort_key(s)` on rows:
lexicographic on `(value is null, value)`, so null sorts above every
non-null value. -/
def keyLt (k : String) (r s : Row) : Bool :=
  match dgetD r k, dgetD s k with
  | .null, _ => false
  | _, .null => true
  | v, w => valLt v w

/-- The non-strict key order used for the stable sort:
`r` at or below `s`. -/
def rowLe (k : String) (r s : Row) : Prop := keyLt k s r = false

instance (k : String) : DecidableRel (rowLe k) := fun r s => by
  unfold rowLe; infer_instance

/-- Two values that Python's key comparison can order without a
`TypeError`: at least one is null, or both are numeric (booleans
included), or both are strings. -/
def valComparable (v w : Value) : Bool :=
  v == Value.null || w == Value.null ||
    ((numView v).isSome && (numView w).isSome) ||
    ((strView v).isSome && (strView w).isSome)

/-- A table is sortable by column `k` when every pair of row values at
`k` is comparable; otherwise Python's `sorted` raises `TypeError` on
some forced comparison and `sort` raises `ValueError`. -/
def sortable (data : Table) (k : String) : Bool :=
  data.all (fun r => data.all (fun s => valComparable (dgetD r k) (dgetD s k)))

/-- Python's `sorted(xs, reverse=rev)` for a stable ascending order:
CPython implements `reverse=True` by reversing the list, running the
stable ascending sort, and reversing the result. -/
def pySorted (r : α → α → Prop) [DecidableRel r] (rev : Bool) (xs : List α) : List α :=
  if rev then (List.insertionSort r xs.reverse).reverse
  else List.insertionSort r xs

/-- `PyStoreJSONDB.sort`: the rows stably sorted by
`(value at k is null, value at k)`, ascending or (with `reverse`)
descending; `none` when the comparison raises. -/
def sort (data : Table) (k : String) (rev : Bool) : Option Table :=
  if sortable data k then some (pySorted (rowLe k) rev data) else none

/-! ## `sort_columns_by_order`

`PyStoreJSONDB.sort_columns_by_order` turns a column-order list into the
priority map `{key: idx}` (for a dict argument it uses the dict itself),
then rebuilds each row with its own keys sorted by the triple
`(0 if k in priority_map else 1, priority_map.get(k, inf), original index)`.
The `inf` default is only compared between two unlisted keys, where both
sides are `inf`; it is modelled as the constant `0`, which induces the same
order.  `enumerate(row.keys())` is modelled by `enumF`. -/

/-- Python `enumerate`, from a starting index. -/
def enumF (i : Nat) : List α → List (Nat × α)
  | [] => []
  | a :: as => (i, a) :: enumF (i + 1) as

/-- A priority map: the model of the Python dict `{key: priority}`.
Lookup takes the first matching entry. -/
abbrev PrioMap := List (String × Int)

/-- Python `dict.get k` on a priority map. -/
def pmFind (pm : PrioMap) (k : String) : Option Int :=
  (pm.find? (fun kv => kv.1 == k)).map Prod.snd

/-- `{key: idx for idx, key in enumerate(column_order)}`: a later
occurrence of a key overwrites an earlier one, so lookup is modelled on
the reversed enumeration. -/
def pmOfList (order : List String) : PrioMap :=
  (enumF 0 order).reverse.map (fun p => (p.2, (p.1 : Int)))

/-- The sort key of `sort_columns_by_order` for an enumerated row key:
`(priority bucket, priority, original index)`. -/
def colSortKey (pm : PrioMap) (p : Nat × String) : Nat × Int × Nat :=
  match pmFind pm p.2 with
  | some pr => (0, pr, p.1)
  | none => (1, 0, p.1)

/-- Strict lexicographic order on the column sort-key triples. -/
def tripleLt (a b : Nat × Int × Nat) : Bool :=
  a.1 < b.1 || (a.1 == b.1 && (a.2.1 < b.2.1 || (a.2.1 == b.2.1 && a.2.2 < b.2.2)))

/-- The non-strict order on enumerated keys used for the stable sort of
`sort_columns_by_order`. -/
def colLe (pm : PrioMap) (p q : Nat × String) : Prop :=
  tripleLt (colSortKey pm q) (colSortKey pm p) = false

instance (pm : PrioMap) : DecidableRel (colLe pm) := fun p q => by
  unfold colLe; infer_instance

/-- `PyStoreJSONDB.sort_columns_by_order` on a priority map: rebuild each
row with its keys sorted by `(listed bucket, priority, original index)`,
reading each value back with `row.get(k, None)`. -/
def sort_columns_by_order (data : Table) (pm : PrioMap) : Table :=
  data.map (fun r =>
    let sortedKeys := (List.insertionSort (colLe pm) (enumF 0 (rkeys r))).map Prod.snd
    sortedKeys.map (fun k => (k, dgetD r k)))

/-- `PyStoreJSONDB.sort_columns_by_order` on a column-order list. -/
def sort_columns_by_list (data : Table) (order : List String) : Table :=
  sort_columns_by_order data (pmOfList order)

/-! ## Basic dictionary lemmas -/

theorem hasKey_iff {r : Row} {k : String} : hasKey r k = true ↔ k ∈ rkeys r := by
  constructor
  · intro h
    obtain ⟨kv, hm, he⟩ := List.any_eq_true.mp h
    exact List.mem_map.mpr ⟨kv, hm, by simpa using he⟩
  · intro h
    obtain ⟨kv, hm, he⟩ := List.mem_map.mp h
    exact List.any_eq_true.mpr ⟨kv, hm, by simp [he]⟩

theorem hasKey_eq_false_iff {r : Row} {k : String} : hasKey r k = false ↔ k ∉ rkeys r := by
  rw [← Bool.not_eq_true, not_iff_not]; exact hasKey_iff

theorem dget_eq_none_iff {r : Row} {k : String} : dget r k = none ↔ k ∉ rkeys r := by
  rw [← hasKey_eq_false_iff]
  induction r with
  | nil => simp [dget, hasKey]
  | cons kv r ih =>
    rw [dget, List.find?_cons]
    cases hb : (kv.1 == k)
    · simp only [hasKey, List.any_cons, hb, Bool.false_or] at ih ⊢
      exact ih
    · simp [hasKey, hb]

theorem dgetD_of_not_mem {r : Row} {k : String} (h : k ∉ rkeys r) :
    dgetD r k = Value.null := by
  rw [dgetD, dget_eq_none_iff.mpr h]; rfl

theorem dget_append {r s : Row} {k : String} :
    dget (r ++ s) k = (dget r k).or (dget s k) := by
  simp only [dget, List.find?_append]
  cases List.find? (fun kv => kv.1 == k) r <;> simp [Option.or]

theorem dget_single {k k' : String} {v : Value} :
    dget [(k', v)] k = if k' = k then some v else none := by
  by_cases h : k' = k
  · subst h; simp [dget]
  · have hb : (k' == k) = false := beq_eq_false_iff_ne.mpr h
    simp [dget, List.find?, hb, h]

theorem dget_append_single_ne {r : Row} {k k' : String} {v : Value} (h : k' ≠ k) :
    dget (r ++ [(k', v)]) k = dget r k := by
  rw [dget_append, dget_single, if_neg h]
  cases dget r k <;> simp [Option.or]

theorem dgetD_append_null {r : Row} {k k' : String} :
    dgetD (r ++ [(k', Value.null)]) k = dgetD r k := by
  rw [dgetD, dgetD, dget_append, dget_single]
  cases dget r k <;> by_cases h : k' = k <;> simp [Option.or, h]

theorem rkeys_append {r s : Row} : rkeys (r ++ s) = rkeys r ++ rkeys s := by
  simp [rkeys]

/-! ## Lemmas about `insert` -/

theorem rkeys_addMissing_mem {ks : List String} {r : Row} {k : String} :
    k ∈ rkeys (addMissing ks r) ↔ k ∈ rkeys r ∨ k ∈ ks := by
  induction ks generalizing r with
  | nil => simp [addMissing]
  | cons k0 ks ih =>
    show k ∈ rkeys (addMissing ks _) ↔ _
    rw [ih]
    cases hh : hasKey r k0
    · simp only [hh, Bool.false_eq_true, if_false, rkeys_append]
      have : rkeys [(k0, Value.null)] = [k0] := rfl
      rw [this]
      simp only [List.mem_append, List.mem_singleton, List.mem_cons]
      tauto
    · simp only [hh, if_true]
      have hk0 : k0 ∈ rkeys r := hasKey_iff.mp hh
      simp only [List.mem_cons]
      constructor
      · tauto
      · rintro (h | rfl | h)
        · tauto
        · exact Or.inl hk0
        · tauto

theorem allKeys_mem {rows : List Row} {k : String} :
    k ∈ allKeys rows ↔ ∃ r ∈ rows, k ∈ rkeys r := by
  rw [allKeys, List.mem_dedup]
  induction rows with
  | nil => simp
  | cons r rows ih =>
    simp only [List.map_cons, List.foldr_cons, List.mem_append, List.mem_cons, ih]
    constructor
    · rintro (h | ⟨r0, hm, hk⟩)
      · exact ⟨r, Or.inl rfl, h⟩
      · exact ⟨r0, Or.inr hm, hk⟩
    · rintro ⟨r0, hm | hm, hk⟩
      · subst hm; exact Or.inl hk
      · exact Or.inr ⟨r0, hm, hk⟩

theorem insert_length {d : Table} {rows : List Row} :
    (insert d rows).length = d.length + rows.length := by
  simp [insert]

theorem foldl_insert_length (calls : List (List Row)) (d : Table) :
    (calls.foldl insert d).length = d.length + (calls.map List.length).sum := by
  induction calls generalizing d with
  | nil => simp [run]
  | cons rs calls ih =>
    simp only [List.foldl_cons, List.map_cons, List.sum_cons, ih, insert_length]
    omega

theorem run_nil_rows {calls : List (List Row)} (h : run calls = []) :
    ∀ rs ∈ calls, rs = [] := by
  intro rs hm
  have hl := foldl_insert_length calls []
  rw [run] at h
  rw [h] at hl
  simp only [List.length_nil, Nat.zero_add] at hl
  have : rs.length = 0 := by
    by_contra hne
    have h1 : 0 < rs.length := Nat.pos_of_ne_zero hne
    have h2 : rs.length ∈ calls.map List.length := List.mem_map.mpr ⟨rs, hm, rfl⟩
    have h3 := List.single_le_sum (fun x _ => Nat.zero_le x) _ h2
    omega
  exact List.eq_nil_of_length_eq_zero this

theorem mem_insert_iff {d : Table} {rows : List Row} {r : Row} :
    r ∈ insert d rows ↔
      ∃ r0, (r0 ∈ d ∨ r0 ∈ rows) ∧ r = addMissing (allKeys (d ++ rows)) r0 := by
  simp only [insert, List.mem_append, List.mem_map]
  constructor
  · rintro (⟨r0, hm, rfl⟩ | ⟨r0, hm, rfl⟩)
    · exact ⟨r0, Or.inl hm, rfl⟩
    · exact ⟨r0, Or.inr hm, rfl⟩
  · rintro ⟨r0, hm | hm, rfl⟩
    · exact Or.inl ⟨r0, hm, rfl⟩
    · exact Or.inr ⟨r0, hm, rfl⟩

/-- C2, claim about the sequence of inserts: every row of `run calls` has
key set equal to the union of the keys of all inserted rows. -/
theorem run_keys_closed (calls : List (List Row)) :
    ∀ r ∈ run calls, ∀ k, k ∈ rkeys r ↔ ∃ rs ∈ calls, ∃ r0 ∈ rs, k ∈ rkeys r0 := by
  induction calls using List.reverseRecOn with
  | nil => intro r hr; simp [run] at hr
  | append_singleton pre rs ih =>
    intro r hr k
    rw [run, List.foldl_append, List.foldl_cons, List.foldl_nil] at hr
    have hrun : pre.foldl insert [] = run pre := rfl
    rw [hrun] at hr
    -- membership in the union key list
    have hks : k ∈ allKeys (run pre ++ rs) ↔
        (∃ rs0 ∈ pre, ∃ r0 ∈ rs0, k ∈ rkeys r0) ∨ ∃ r0 ∈ rs, k ∈ rkeys r0 := by
      rw [allKeys_mem]
      constructor
      · rintro ⟨r0, hm, hk⟩
        rcases List.mem_append.mp hm with hm | hm
        · exact Or.inl (by
            obtain ⟨rs0, hrs0, hr0, hr0k⟩ := by
              have := (ih r0 hm k).mp hk
              exact this
            exact ⟨rs0, hrs0, hr0, hr0k⟩)
        · exact Or.inr ⟨r0, hm, hk⟩
      · rintro (hU | ⟨r0, hm, hk⟩)
        · cases hd : run pre with
          | nil =>
            obtain ⟨rs0, hrs0, r0, hr0, _⟩ := hU
            have := run_nil_rows hd rs0 hrs0
            subst this
            simp at hr0
          | cons rh rt =>
            have hmem : rh ∈ run pre := by rw [hd]; exact List.mem_cons_self _ _
            have hkk := (ih rh hmem k).mpr hU
            exact ⟨rh, List.mem_append.mpr (Or.inl (List.mem_cons_self _ _)), hkk⟩
        · exact ⟨r0, List.mem_append.mpr (Or.inr hm), hk⟩
    obtain ⟨r0, hm0, rfl⟩ := mem_insert_iff.mp hr
    rw [rkeys_addMissing_mem]
    have hsub : k ∈ rkeys r0 → k ∈ allKeys (run pre ++ rs) :=
      fun hk => allKeys_mem.mpr ⟨r0, List.mem_append.mpr hm0, hk⟩
    constructor
    · rintro (hk | hk)
      · have := hks.mp (hsub hk)
        rcases this with h | h
        · obtain ⟨rs0, hrs0, hx⟩ := h
          exact ⟨rs0, List.mem_append.mpr (Or.inl hrs0), hx⟩
        · exact ⟨rs, List.mem_append.mpr (Or.inr (List.mem_singleton.mpr rfl)), h⟩
      · have := hks.mp hk
        rcases this with h | h
        · obtain ⟨rs0, hrs0, hx⟩ := h
          exact ⟨rs0, List.mem_append.mpr (Or.inl hrs0), hx⟩
        · exact ⟨rs, List.mem_append.mpr (Or.inr (List.mem_singleton.mpr rfl)), h⟩
    · rintro ⟨rs0, hrs0, hx⟩
      rcases List.mem_append.mp hrs0 with h | h
      · exact Or.inr (hks.mpr (Or.inl ⟨rs0, h, hx⟩))
      · rw [List.mem_singleton] at h
        subst h
        exact Or.inr (hks.mpr (Or.inr hx))

/-- C2: for every sequence of `insert` calls starting from the empty
table, immediately after each call every stored row has the same key
set, equal to the union of the keys of all rows inserted so far;
moreover `insert` never removes a column from an existing row. -/
theorem claim_C2 :
    (∀ calls : List (List Row), ∀ r ∈ run calls, ∀ k,
      k ∈ rkeys r ↔ ∃ rs ∈ calls, ∃ r0 ∈ rs, k ∈ rkeys r0) ∧
    (∀ (d : Table) (rows : List Row) (i : Nat) (r0 : Row),
      d[i]? = some r0 → ∀ k ∈ rkeys r0, ∃ r1, (insert d rows)[i]? = some r1 ∧ k ∈ rkeys r1) := by
  constructor
  · exact run_keys_closed
  · intro d rows i r0 h0 k hk
    have hi : i < d.length := (List.getElem?_eq_some_iff.mp h0).1
    refine ⟨addMissing (allKeys (d ++ rows)) r0, ?_, ?_⟩
    · rw [insert]
      rw [List.getElem?_append_left (by simpa using hi), List.getElem?_map, h0]
      rfl
    · exact rkeys_addMissing_mem.mpr (Or.inl hk)

/-- Witness for C2 at a concrete call sequence and a concrete insert. -/
theorem claim_C2_witness :
    (("a" : String) ∈ rkeys [("b", Value.num 2), ("a", Value.null)] ↔
      ∃ rs ∈ [[[(("a" : String), Value.num 1)]], [[("b", Value.num 2)]]], ∃ r0 ∈ rs, ("a" : String) ∈ rkeys r0) ∧
    (∃ r1, (insert [[("a", Value.num 1)]] [[("b", Value.num 2)]])[0]? = some r1 ∧ ("a" : String) ∈ rkeys r1) := by
  constructor
  · exact claim_C2.1 [[[("a", Value.num 1)]], [[("b", Value.num 2)]]]
      [("b", Value.num 2), ("a", Value.null)] (by decide) "a"
  · exact claim_C2.2 [[("a", Value.num 1)]] [[("b", Value.num 2)]] 0 [("a", Value.num 1)]
      (by decide) "a" (by decide)

/-! ## Lemmas about pruning -/

theorem dget_cons_ne {kv : String × Value} {r : Row} {k : String}
    (hb : (kv.1 == k) = false) : dget (kv :: r) k = dget r k := by
  rw [dget, List.find?_cons_of_neg _ (by simp [hb])]
  rfl

theorem dget_cons_eq {kv : String × Value} {r : Row} {k : String}
    (hb : kv.1 = k) : dget (kv :: r) k = some kv.2 := by
  rw [dget, List.find?_cons_of_pos _ (by simp [hb])]
  rfl

theorem dget_filterKey (p : String → Bool) (r : Row) (k : String) :
    dget (r.filter (fun kv => p kv.1)) k = if p k then dget r k else none := by
  induction r with
  | nil => simp [dget]
  | cons kv r ih =>
    by_cases hk : kv.1 = k
    · rw [List.filter_cons, hk]
      cases hp : p k
      · simp only [Bool.false_eq_true, if_false] at ih ⊢
        rw [ih, hp]
        simp
      · simp only [if_true]
        rw [dget_cons_eq hk, dget_cons_eq hk]
    · have hb : (kv.1 == k) = false := beq_eq_false_iff_ne.mpr hk
      rw [List.filter_cons]
      cases hp : p kv.1
      · simp only [Bool.false_eq_true, if_false]
        rw [ih, dget_cons_ne hb]
      · simp only [if_true]
        rw [dget_cons_ne hb, ih, dget_cons_ne hb]

theorem prune_length {d : Table} : (prune_empty_columns d).length = d.length := by
  rw [prune_empty_columns]
  cases d <;> simp

theorem emptyKey_eq_false_iff {d : Table} {k : String} :
    emptyKey d k = false ↔ ∃ r ∈ d, dgetD r k ≠ Value.null := by
  rw [emptyKey, ← Bool.not_eq_true, List.all_eq_true]
  push_neg
  constructor
  · rintro ⟨r, hr, hne⟩
    exact ⟨r, hr, by simpa using hne⟩
  · rintro ⟨r, hr, hne⟩
    exact ⟨r, hr, by simpa using hne⟩

theorem prune_map (d : Table) (hne : d ≠ []) :
    prune_empty_columns d = d.map (fun r => r.filter (fun kv => !emptyKey d kv.1)) := by
  rw [prune_empty_columns, if_neg]
  simpa using hne

/-- The pruning invariant: after `_prune_empty_columns`, a column that is
null or missing in every row is present in no row. -/
theorem prune_invariant (d : Table) (k : String)
    (h : ∀ r ∈ prune_empty_columns d, dgetD r k = Value.null) :
    ∀ r ∈ prune_empty_columns d, k ∉ rkeys r := by
  rcases eq_or_ne d [] with rfl | hne
  · intro r hr; simp [prune_empty_columns] at hr
  · rw [prune_map d hne] at h ⊢
    cases hek : emptyKey d k with
    | false =>
      exfalso
      obtain ⟨r0, hr0, hv⟩ := emptyKey_eq_false_iff.mp hek
      have hmem : r0.filter (fun kv => !emptyKey d kv.1) ∈
          d.map (fun r => r.filter (fun kv => !emptyKey d kv.1)) :=
        List.mem_map_of_mem _ hr0
      have hnull := h _ hmem
      rw [dgetD, dget_filterKey (fun s => !emptyKey d s) r0 k, hek] at hnull
      simp only [Bool.not_false, if_true] at hnull
      exact hv (by rw [dgetD]; exact hnull)
    | true =>
      intro r hr hkmem
      obtain ⟨r0, _, rfl⟩ := List.mem_map.mp hr
      obtain ⟨kv, hkv, hfst⟩ := List.mem_map.mp hkmem
      have hpred := (List.mem_filter.mp hkv).2
      rw [hfst, hek] at hpred
      simp at hpred

/-- C3: immediately after `update_by`, `batch_update_by` or `delete_by`,
every column whose value is null or missing in every surviving row is
absent from every surviving row. -/
theorem claim_C3 :
    (∀ (d : Table) (key : String) (v : Value) (upd : Row) (k : String),
      (∀ r ∈ (update_by d key v upd).1, dgetD r k = Value.null) →
      ∀ r ∈ (update_by d key v upd).1, k ∉ rkeys r) ∧
    (∀ (d : Table) (conds : List Cond) (k : String),
      (∀ r ∈ (batch_update_by d conds).1, dgetD r k = Value.null) →
      ∀ r ∈ (batch_update_by d conds).1, k ∉ rkeys r) ∧
    (∀ (d : Table) (key : String) (v : Value) (k : String),
      (∀ r ∈ (delete_by d key v).1, dgetD r k = Value.null) →
      ∀ r ∈ (delete_by d key v).1, k ∉ rkeys r) := by
  refine ⟨fun d key v upd k h => ?_, fun d conds k h => ?_, fun d key v k h => ?_⟩
  · exact prune_invariant _ k h
  · exact prune_invariant _ k h
  · exact prune_invariant _ k h

/-- Witness for C3: concrete applications of all three conjuncts. -/
theorem claim_C3_witness :
    (("zz" : String) ∉ rkeys [(("a" : String), Value.num 2)]) ∧
    (("zz" : String) ∉ rkeys [(("a" : String), Value.num 3)]) ∧
    (("zz" : String) ∉ rkeys [(("a" : String), Value.num 2)]) := by
  refine ⟨?_, ?_, ?_⟩
  · exact claim_C3.1 [[("a", Value.num 1)]] "a" (Value.num 1) [("a", Value.num 2)] "zz"
      (by decide) [("a", Value.num 2)] (by decide)
  · exact claim_C3.2.1 [[("a", Value.num 1)]] [("a", Value.num 1, [("a", Value.num 3)])] "zz"
      (by decide) [("a", Value.num 3)] (by decide)
  · exact claim_C3.2.2 [[("a", Value.num 1)], [("a", Value.num 2)]] "a" (Value.num 1) "zz"
      (by decide) [("a", Value.num 2)] (by decide)

/-! ## Lemmas about `update_by` and `delete_by` -/

theorem hasKey_append {r s : Row} {k : String} :
    hasKey (r ++ s) k = (hasKey r k || hasKey s k) := by
  simp [hasKey, List.any_append]

theorem dgetD_foldl_dinsert {ks : List String} {r : Row} {k : String}
    (hnd : ks.Nodup) (hno : ∀ k' ∈ ks, hasKey r k' = false) :
    dgetD (ks.foldl (fun acc k' => dinsert acc k' Value.null) r) k = dgetD r k := by
  induction ks generalizing r with
  | nil => rfl
  | cons k0 ks ih =>
    rw [List.foldl_cons, dinsert, hno k0 (List.mem_cons_self _ _)]
    simp only [Bool.false_eq_true, if_false]
    rw [ih hnd.of_cons, dgetD_append_null]
    intro k' hk'
    rw [hasKey_append, hno k' (List.mem_cons_of_mem _ hk'), Bool.false_or]
    have hne : k0 ≠ k' := fun h => (List.nodup_cons.mp hnd).1 (h ▸ hk')
    simp [hasKey, beq_eq_false_iff_ne.mpr hne]

theorem newKeysOf_nodup {d : Table} {ks : List String} : (newKeysOf d ks).Nodup :=
  (List.nodup_dedup ks).filter _

theorem newKeysOf_not_hasKey {d : Table} {ks : List String} {r : Row} (hr : r ∈ d) :
    ∀ k' ∈ newKeysOf d ks, hasKey r k' = false := by
  intro k' hk'
  have := (List.mem_filter.mp hk').2
  rw [Bool.not_eq_eq_eq_not, Bool.not_true] at this
  exact Bool.not_eq_true _ ▸ (List.any_eq_false.mp this r hr)

theorem dgetD_addNullColumns {d : Table} {ks : List String} {r : Row} (hr : r ∈ d)
    {k : String} :
    dgetD (newKeysOf d ks |>.foldl (fun acc k' => dinsert acc k' Value.null) r) k
      = dgetD r k :=
  dgetD_foldl_dinsert newKeysOf_nodup (newKeysOf_not_hasKey hr)

/-- C4: `update_by` returns the number of rows whose value at `key`
equals `value` in the loaded table (missing read as null), regardless of
whether the patch changes any value. -/
theorem claim_C4 (d : Table) (key : String) (v : Value) (upd : Row) :
    (update_by d key v upd).2 = d.countP (fun r => pyEq (dgetD r key) v) := by
  show (addNullColumns d (newKeysOf d (rkeys upd))).countP _ = _
  rw [addNullColumns, List.countP_map]
  refine List.countP_congr fun r hr => ?_
  simp only [Function.comp]
  rw [dgetD_addNullColumns hr]

/-- C7: `delete_by` returns the number of rows before minus the number
after, the survivors are exactly the rows not matching the predicate,
and every surviving row is a (pruned) non-matching row of the input. -/
theorem claim_C7 (d : Table) (key : String) (v : Value) :
    (delete_by d key v).2 = d.length - (delete_by d key v).1.length ∧
    (delete_by d key v).1.length = d.countP (fun r => !pyEq (dgetD r key) v) ∧
    ∀ r' ∈ (delete_by d key v).1, ∃ r ∈ d, pyEq (dgetD r key) v = false ∧
      (∀ k ∈ rkeys r', dgetD r' k = dgetD r k) ∧ (∀ k ∈ rkeys r', k ∈ rkeys r) := by
  have hlen : (delete_by d key v).1.length
      = (d.filter (fun r => !pyEq (dgetD r key) v)).length := prune_length
  refine ⟨?_, ?_, ?_⟩
  · show d.length - (d.filter (fun r => !pyEq (dgetD r key) v)).length = _
    rw [hlen]
  · rw [hlen, List.countP_eq_length_filter]
  · intro r' hr'
    show ∃ r ∈ d, _
    have hmem : r' ∈ prune_empty_columns (d.filter (fun r => !pyEq (dgetD r key) v)) := hr'
    set kept := d.filter (fun r => !pyEq (dgetD r key) v) with hkept
    rcases eq_or_ne kept [] with hk0 | hk0
    · rw [hk0] at hmem; simp [prune_empty_columns] at hmem
    · rw [prune_map kept hk0] at hmem
      obtain ⟨r0, hr0, rfl⟩ := List.mem_map.mp hmem
      have hr0d := List.mem_filter.mp hr0
      refine ⟨r0, hr0d.1, by simpa using hr0d.2, ?_, ?_⟩
      · intro k hkmem
        rw [dgetD, dgetD, dget_filterKey (fun s => !emptyKey kept s) r0 k]
        obtain ⟨kv, hkv, hfst⟩ := List.mem_map.mp hkmem
        have hpred := (List.mem_filter.mp hkv).2
        rw [hfst] at hpred
        rw [hpred]
        simp
      · intro k hkmem
        obtain ⟨kv, hkv, hfst⟩ := List.mem_map.mp hkmem
        exact List.mem_map.mpr ⟨kv, (List.mem_filter.mp hkv).1, hfst⟩

/-- Witness for C7: the surviving-row conjunct applied at a concrete
table and row. -/
theorem claim_C7_witness :
    ∃ r ∈ [[(("a" : String), Value.num 1)], [("a", Value.num 3)]],
      pyEq (dgetD r "a") (Value.num 1) = false ∧
      (∀ k ∈ rkeys [(("a" : String), Value.num 3)], dgetD [(("a" : String), Value.num 3)] k = dgetD r k) ∧
      (∀ k ∈ rkeys [(("a" : String), Value.num 3)], k ∈ rkeys r) :=
  (claim_C7 [[("a", Value.num 1)], [("a", Value.num 3)]] "a" (Value.num 1)).2.2
    [("a", Value.num 3)] (by decide)

/-! ## Lemmas about `rename_key` -/

theorem hasKey_cons {kv : String × Value} {r : Row} {k : String} :
    hasKey (kv :: r) k = (kv.1 == k || hasKey r k) := by
  simp [hasKey]

theorem rkeys_dpop {r : Row} {o : String} :
    rkeys (dpop r o) = (rkeys r).filter (fun k => k != o) := by
  induction r with
  | nil => rfl
  | cons kv r ih =>
    have ih' : rkeys (List.filter (fun kv => kv.1 != o) r)
        = (rkeys r).filter (fun k => k != o) := ih
    rw [dpop, List.filter_cons]
    cases h : (kv.1 != o)
    · simp only [Bool.false_eq_true, if_false, rkeys, List.map_cons, List.filter_cons, h]
      exact ih'
    · simp only [if_true, rkeys, List.map_cons, List.filter_cons, h]
      exact congrArg (kv.1 :: ·) ih'

theorem rkeys_dinsert_mem {r : Row} {k : String} {v : Value} (h : hasKey r k = true) :
    rkeys (dinsert r k v) = rkeys r := by
  rw [dinsert, h]
  simp only [if_true, rkeys, List.map_map]
  refine List.map_congr_left fun kv _ => ?_
  simp only [Function.comp]
  cases hb : (kv.1 == k)
  · rfl
  · simp [beq_iff_eq.mp hb]

theorem dget_map_replace {r : Row} {k : String} {v : Value} (h : hasKey r k = true) :
    dget (r.map (fun kv => if kv.1 == k then (k, v) else kv)) k = some v := by
  induction r with
  | nil => simp [hasKey] at h
  | cons kv r ih =>
    rw [List.map_cons]
    cases hb : (kv.1 == k)
    · simp only [Bool.false_eq_true, if_false]
      rw [dget_cons_ne hb]
      apply ih
      rw [hasKey_cons, hb, Bool.false_or] at h
      exact h
    · simp only [if_true]
      exact dget_cons_eq rfl

theorem dget_dinsert_self {r : Row} {k : String} {v : Value} (h : hasKey r k = true) :
    dget (dinsert r k v) k = some v := by
  rw [dinsert, h]
  simp only [if_true]
  exact dget_map_replace h

/-- C6: `rename_key` returns true iff some row contained the old key;
rows lacking the old key are returned unchanged (in particular they gain
no new column); when no row was renamed the table is unchanged, so
skipping the write-back leaves the same state. -/
theorem claim_C6 (d : Table) (o n : String) :
    ((rename_key d o n).2 = true ↔ ∃ r ∈ d, o ∈ rkeys r) ∧
    (∀ (i : Nat) (r0 : Row), d[i]? = some r0 → o ∉ rkeys r0 →
      (rename_key d o n).1[i]? = some r0) ∧
    ((rename_key d o n).2 = false → (rename_key d o n).1 = d) := by
  refine ⟨?_, ?_, ?_⟩
  · show d.any (fun r => hasKey r o) = true ↔ _
    rw [List.any_eq_true]
    exact exists_congr fun r => and_congr_right fun _ => hasKey_iff
  · intro i r0 h0 hno
    show (d.map _)[i]? = some r0
    rw [List.getElem?_map, h0, Option.map_some']
    rw [← hasKey_eq_false_iff] at hno
    rw [hno]
    simp
  · intro hflag
    have hflag' : d.any (fun r => hasKey r o) = false := hflag
    have hall : ∀ r ∈ d, hasKey r o = false := fun r hr =>
      Bool.not_eq_true _ ▸ List.any_eq_false.mp hflag' r hr
    show d.map _ = d
    rw [show d.map (fun r => if hasKey r o then renameRow o n r else r) = d.map id from
      List.map_congr_left fun r hr => by rw [hall r hr]; simp]
    exact List.map_id d

/-- Witness for C6: the untouched-row and no-write-back conjuncts at
concrete tables. -/
theorem claim_C6_witness :
    ((rename_key [[(("x" : String), Value.num 1)], [("o", Value.num 2)]] "o" "n").1[0]?
      = some [("x", Value.num 1)]) ∧
    ((rename_key [[(("x" : String), Value.num 1)]] "o" "n").1 = [[("x", Value.num 1)]]) :=
  ⟨(claim_C6 [[("x", Value.num 1)], [("o", Value.num 2)]] "o" "n").2.1 0
      [("x", Value.num 1)] (by decide) (by decide),
   (claim_C6 [[("x", Value.num 1)]] "o" "n").2.2 (by decide)⟩

/-- Counterexample to C10 as stated: with `old = new = "a"` the row
`{"a": 1, "b": 2}` contains both the old and the new key, yet after
`rename_key` the old key is still present and has moved from its
pre-existing position (index 0) to the end of the row. -/
theorem claim_C10_counterexample :
    (rename_key [[(("a" : String), Value.num 1), ("b", Value.num 2)]] "a" "a").1
      = [[("b", Value.num 2), ("a", Value.num 1)]] ∧
    ("a" : String) ∈ rkeys [(("b" : String), Value.num 2), ("a", Value.num 1)] ∧
    rkeys [(("a" : String), Value.num 1), ("b", Value.num 2)] = ["a", "b"] ∧
    rkeys [(("b" : String), Value.num 2), ("a", Value.num 1)] = ["b", "a"] := by
  decide

/-- C10 (amended: for distinct keys `old ≠ new`): for every row
containing both keys, `rename_key` sets the value at `new` to the row's
previous value at `old` (the previous value at `new` is lost), removes
`old`, and the key sequence is the original one with `old` deleted — in
particular `new` keeps its pre-existing position instead of moving to
the end. -/
theorem claim_C10_amended (d : Table) (o n : String) (hne : o ≠ n) :
    ∀ (i : Nat) (r0 : Row), d[i]? = some r0 → o ∈ rkeys r0 → n ∈ rkeys r0 →
      ∃ r1, (rename_key d o n).1[i]? = some r1 ∧
        dgetD r1 n = dgetD r0 o ∧ o ∉ rkeys r1 ∧
        rkeys r1 = (rkeys r0).filter (fun k => k != o) := by
  intro i r0 h0 ho hn
  have hflag : hasKey r0 o = true := hasKey_iff.mpr ho
  refine ⟨renameRow o n r0, ?_, ?_, ?_, ?_⟩
  · show (d.map _)[i]? = _
    rw [List.getElem?_map, h0, Option.map_some', hflag]
    simp
  · have hnpop : n ∈ rkeys (dpop r0 o) := by
      rw [rkeys_dpop]
      exact List.mem_filter.mpr ⟨hn, by simpa using hne.symm⟩
    rw [renameRow, dgetD, dget_dinsert_self (hasKey_iff.mpr hnpop)]
    rfl
  · intro habs
    have hkeys : rkeys (renameRow o n r0) = rkeys (dpop r0 o) :=
      rkeys_dinsert_mem (hasKey_iff.mpr (by
        rw [rkeys_dpop]
        exact List.mem_filter.mpr ⟨hn, by simpa using hne.symm⟩))
    rw [hkeys, rkeys_dpop] at habs
    have := (List.mem_filter.mp habs).2
    simp at this
  · rw [renameRow, rkeys_dinsert_mem (hasKey_iff.mpr (by
      rw [rkeys_dpop]
      exact List.mem_filter.mpr ⟨hn, by simpa using hne.symm⟩)), rkeys_dpop]

/-- Witness for the amended C10 at a concrete row. -/
theorem claim_C10_witness :
    ∃ r1, (rename_key [[(("a" : String), Value.num 1), ("n", Value.num 9), ("c", Value.num 3)]]
        "a" "n").1[0]? = some r1 ∧
      dgetD r1 "n" = dgetD [(("a" : String), Value.num 1), ("n", Value.num 9), ("c", Value.num 3)] "a" ∧
      ("a" : String) ∉ rkeys r1 ∧
      rkeys r1 = (rkeys [(("a" : String), Value.num 1), ("n", Value.num 9), ("c", Value.num 3)]).filter
        (fun k => k != "a") :=
  claim_C10_amended [[("a", Value.num 1), ("n", Value.num 9), ("c", Value.num 3)]] "a" "n"
    (by decide) 0 [("a", Value.num 1), ("n", Value.num 9), ("c", Value.num 3)]
    (by decide) (by decide) (by decide)

/-! ## Lemmas about `batch_update_by` -/

theorem rkeys_dinsert_mem_iff {r : Row} {k k' : String} {v : Value} :
    k' ∈ rkeys (dinsert r k v) ↔ k' ∈ rkeys r ∨ k' = k := by
  cases hh : hasKey r k
  · rw [dinsert, hh]
    simp only [Bool.false_eq_true, if_false, rkeys_append]
    have : rkeys [(k, v)] = [k] := rfl
    rw [this, List.mem_append, List.mem_singleton]
  · rw [rkeys_dinsert_mem hh]
    have hk := hasKey_iff.mp hh
    constructor
    · exact Or.inl
    · rintro (h | rfl)
      · exact h
      · exact hk

theorem rkeys_foldl_dinsert_mem {ks : List String} {r : Row} {k' : String} :
    k' ∈ rkeys (ks.foldl (fun acc k => dinsert acc k Value.null) r)
      ↔ k' ∈ rkeys r ∨ k' ∈ ks := by
  induction ks generalizing r with
  | nil => simp
  | cons k0 ks ih =>
    rw [List.foldl_cons, ih, rkeys_dinsert_mem_iff, List.mem_cons]
    tauto

/-- The count computation described by the claim for `batch_update_by`:
each condition is counted against the table as evolved by the earlier
conditions, and the counts are summed. -/
def specBatchCount : Table → List Cond → Nat
  | _, [] => 0
  | d, c :: cs => condCount d c + specBatchCount (applyCond d c) cs

theorem batch_foldl (conds : List Cond) (d : Table) (n : Nat) :
    conds.foldl (fun acc c => (applyCond acc.1 c, acc.2 + condCount acc.1 c)) (d, n)
      = (conds.foldl applyCond d, n + specBatchCount d conds) := by
  induction conds generalizing d n with
  | nil => simp [specBatchCount]
  | cons c cs ih =>
    rw [List.foldl_cons, List.foldl_cons, ih, specBatchCount]
    rw [Nat.add_assoc]

/-- C5: `batch_update_by` first adds the wholly new keys of the union of
all patches as null to every row (preserving every read value), then
folds the conditions in order over that same table (so each condition's
predicate sees the merges of the earlier ones), prunes once at the end,
and returns the sum over conditions of the number of rows matching that
condition at its turn. -/
theorem claim_C5 (d : Table) (conds : List Cond) :
    (batch_update_by d conds).1
      = prune_empty_columns (conds.foldl applyCond (batchClosure d conds)) ∧
    (batch_update_by d conds).2 = specBatchCount (batchClosure d conds) conds ∧
    (∀ (i : Nat) (r0 : Row), d[i]? = some r0 →
      ∃ r1, (batchClosure d conds)[i]? = some r1 ∧
        (∀ k, dgetD r1 k = dgetD r0 k) ∧
        (∀ k, k ∈ rkeys r1 ↔ k ∈ rkeys r0 ∨
          k ∈ newKeysOf d ((conds.map (fun c => rkeys c.2.2)).foldr (· ++ ·) []))) := by
  have h := batch_foldl conds (batchClosure d conds) 0
  refine ⟨?_, ?_, ?_⟩
  · show prune_empty_columns
        (conds.foldl (fun acc c => (applyCond acc.1 c, acc.2 + condCount acc.1 c))
          (batchClosure d conds, 0)).1 = _
    rw [h]
  · show (conds.foldl (fun acc c => (applyCond acc.1 c, acc.2 + condCount acc.1 c))
        (batchClosure d conds, 0)).2 = _
    rw [h, Nat.zero_add]
  · intro i r0 h0
    have hmem : r0 ∈ d := List.getElem?_mem h0
    refine ⟨(newKeysOf d ((conds.map (fun c => rkeys c.2.2)).foldr (· ++ ·) [])).foldl
        (fun acc k => dinsert acc k Value.null) r0, ?_, ?_, ?_⟩
    · show (d.map _)[i]? = _
      rw [List.getElem?_map, h0, Option.map_some']
    · intro k
      exact dgetD_addNullColumns hmem
    · intro k
      exact rkeys_foldl_dinsert_mem

/-- Witness for C5: the closure conjunct applied at a concrete table. -/
theorem claim_C5_witness :
    ∃ r1, (batchClosure [[(("a" : String), Value.num 1)]]
        [("a", Value.num 1, [("p", Value.num 7)])])[0]? = some r1 ∧
      (∀ k, dgetD r1 k = dgetD [(("a" : String), Value.num 1)] k) ∧
      (∀ k, k ∈ rkeys r1 ↔ k ∈ rkeys [(("a" : String), Value.num 1)] ∨
        k ∈ newKeysOf [[(("a" : String), Value.num 1)]]
          (([(("a" : String), Value.num 1, [(("p" : String), Value.num 7)])].map
            (fun c => rkeys c.2.2)).foldr (· ++ ·) [])) :=
  (claim_C5 [[("a", Value.num 1)]] [("a", Value.num 1, [("p", Value.num 7)])]).2.2 0
    [("a", Value.num 1)] (by decide)

/-! ## Order lemmas for `sort` -/

theorem valLt_asymm {v w : Value} (h : valLt v w = true) : valLt w v = false := by
  cases v <;> cases w <;> simp_all [valLt, numView, strView] <;>
    first | omega | exact le_of_lt h

theorem valLt_negtrans {x y z : Value} (hy : y ≠ Value.null)
    (h : valLt x z = true) : valLt x y = true ∨ valLt y z = true := by
  cases x <;> cases y <;> cases z <;> simp_all [valLt, numView, strView] <;>
    first | omega | exact (lt_or_ge _ _).imp id fun h2 => lt_of_le_of_lt h2 h

theorem keyLt_asymm {k : String} {r s : Row} (h : keyLt k r s = true) :
    keyLt k s r = false := by
  cases hv : dgetD r k <;> cases hw : dgetD s k <;>
    simp only [keyLt, hv, hw] at h ⊢ <;>
    first | rfl | exact valLt_asymm h | simp at h

theorem keyLt_negtrans {k : String} {a b c : Row} (h : keyLt k c a = true) :
    keyLt k c b = true ∨ keyLt k b a = true := by
  cases hc : dgetD c k <;> cases ha : dgetD a k <;> cases hb : dgetD b k <;>
    simp only [keyLt, hc, ha, hb] at h ⊢ <;>
    first
      | simp at h
      | trivial
      | exact Or.inl rfl
      | exact Or.inr rfl
      | exact Or.inl trivial
      | exact Or.inr trivial
      | exact valLt_negtrans (by simp) h

theorem rowLe_total (k : String) : ∀ r s : Row, rowLe k r s ∨ rowLe k s r := by
  intro r s
  rw [rowLe, rowLe]
  cases h : keyLt k s r
  · exact Or.inl rfl
  · exact Or.inr (keyLt_asymm h)

theorem rowLe_trans (k : String) :
    ∀ a b c : Row, rowLe k a b → rowLe k b c → rowLe k a c := by
  intro a b c hab hbc
  rw [rowLe] at *
  by_contra hac
  have hac' : keyLt k c a = true := by
    cases h : keyLt k c a
    · exact absurd h hac
    · rfl
  rcases keyLt_negtrans hac' with h | h
  · rw [h] at hbc; simp at hbc
  · rw [h] at hab; simp at hab

instance (k : String) : IsTotal Row (rowLe k) := ⟨rowLe_total k⟩

instance (k : String) : IsTrans Row (rowLe k) := ⟨rowLe_trans k⟩

theorem rowLe_null_mono {k : String} {r s : Row} (h : rowLe k r s)
    (hr : dgetD r k = Value.null) : dgetD s k = Value.null := by
  rw [rowLe] at h
  by_contra hs
  have hlt : keyLt k s r = true := by
    cases hv : dgetD s k
    · exact absurd hv hs
    all_goals simp only [keyLt, hv, hr]
  rw [hlt] at h
  simp at h

/-! ## The claims about `sort` -/

/-- Counterexample to C1 as stated: sorting `[{"a": null}, {"a": 1}]` by
`"a"` with `reverse=true` succeeds and places the null-valued row
*before* the non-null row, not after it. -/
theorem claim_C1_counterexample :
    sort [[(("a" : String), Value.null)], [("a", Value.num 1)]] "a" true
      = some [[(("a" : String), Value.null)], [("a", Value.num 1)]] ∧
    dgetD [(("a" : String), Value.null)] "a" = Value.null ∧
    dgetD [(("a" : String), Value.num 1)] "a" ≠ Value.null := by
  refine ⟨by decide, rfl, by decide⟩

/-- C1 (amended: null-valued keys sort after all non-null values when
`reverse=false`, and *before* all non-null values when `reverse=true`):
whenever `sort` succeeds it returns a permutation of the rows ordered by
the key `(value at k is null, value at k)` — ascending for
`reverse=false` with nulls last, descending for `reverse=true` with
nulls first. -/
theorem claim_C1_amended (data : Table) (k : String) (rev : Bool) (out : Table)
    (h : sort data k rev = some out) :
    out.Perm data ∧
    (rev = false → out.Pairwise (rowLe k) ∧
      out.Pairwise (fun r s => dgetD r k = Value.null → dgetD s k = Value.null)) ∧
    (rev = true → out.Pairwise (fun r s => rowLe k s r) ∧
      out.Pairwise (fun r s => dgetD s k = Value.null → dgetD r k = Value.null)) := by
  rw [sort] at h
  by_cases hs : sortable data k = true
  · rw [if_pos hs] at h
    have hout : out = pySorted (rowLe k) rev data := (Option.some.inj h).symm
    cases rev with
    | false =>
      have hout' : out = List.insertionSort (rowLe k) data := hout
      subst hout'
      refine ⟨List.perm_insertionSort _ _, fun _ => ⟨?_, ?_⟩, ?_⟩
      · exact List.sorted_insertionSort (rowLe k) data
      · exact (List.sorted_insertionSort (rowLe k) data).imp fun hle => rowLe_null_mono hle
      · intro hfalse
        exact absurd hfalse (by decide)
    | true =>
      have hout' : out = (List.insertionSort (rowLe k) data.reverse).reverse := hout
      subst hout'
      refine ⟨?_, ?_, fun _ => ⟨?_, ?_⟩⟩
      · exact ((List.reverse_perm _).trans (List.perm_insertionSort _ _)).trans
          (List.reverse_perm data)
      · intro htrue
        exact absurd htrue (by decide)
      · exact List.pairwise_reverse.mpr (List.sorted_insertionSort (rowLe k) data.reverse)
      · exact List.pairwise_reverse.mpr
          ((List.sorted_insertionSort (rowLe k) data.reverse).imp
            fun hle => rowLe_null_mono hle)
  · rw [if_neg hs] at h
    cases h

/-- Witness for the amended C1 at a concrete table, both directions. -/
theorem claim_C1_witness :
    ([[(("a" : String), Value.num 1)], [("a", Value.null)]].Perm
        [[(("a" : String), Value.null)], [("a", Value.num 1)]]) ∧
    ([[(("a" : String), Value.null)], [("a", Value.num 1)]].Perm
        [[(("a" : String), Value.null)], [("a", Value.num 1)]]) := by
  constructor
  · exact (claim_C1_amended [[("a", Value.null)], [("a", Value.num 1)]] "a" false
      [[("a", Value.num 1)], [("a", Value.null)]] (by decide)).1
  · exact (claim_C1_amended [[("a", Value.null)], [("a", Value.num 1)]] "a" true
      [[("a", Value.null)], [("a", Value.num 1)]] (by decide)).1

/-- Two rows whose sort keys `(value is null, value)` compare equal:
neither is strictly below the other. -/
def keyTie (k : String) (r s : Row) : Bool := !keyLt k r s && !keyLt k s r

theorem tie_rowLe {k : String} {r1 r2 r0 : Row} (h1 : keyTie k r1 r0 = true)
    (h2 : keyTie k r2 r0 = true) : rowLe k r1 r2 := by
  rw [keyTie, Bool.and_eq_true, Bool.not_eq_true', Bool.not_eq_true'] at h1 h2
  rw [rowLe]
  cases hlt : keyLt k r2 r1
  · rfl
  · rcases @keyLt_negtrans k r1 r0 r2 hlt with h | h
    · rw [h2.1] at h; cases h
    · rw [h1.2] at h; cases h

theorem isort_filter_tie (k : String) (r0 : Row) (data : Table) :
    (List.insertionSort (rowLe k) data).filter (fun r => keyTie k r r0)
      = data.filter (fun r => keyTie k r r0) := by
  have hpair : (data.filter (fun r => keyTie k r r0)).Pairwise (rowLe k) :=
    List.pairwise_of_forall_mem_list fun a ha b hb =>
      tie_rowLe (List.mem_filter.mp ha).2 (List.mem_filter.mp hb).2
  have hsub : List.Sublist (data.filter (fun r => keyTie k r r0))
      (List.insertionSort (rowLe k) data) :=
    List.sublist_insertionSort hpair (List.filter_sublist data)
  have hself : (data.filter (fun r => keyTie k r r0)).filter (fun r => keyTie k r r0)
      = data.filter (fun r => keyTie k r r0) :=
    List.filter_eq_self.mpr fun a ha => (List.mem_filter.mp ha).2
  have hsub2 : List.Sublist (data.filter (fun r => keyTie k r r0))
      ((List.insertionSort (rowLe k) data).filter (fun r => keyTie k r r0)) := by
    have h2 := hsub.filter (fun r => keyTie k r r0)
    rwa [hself] at h2
  have hperm : ((List.insertionSort (rowLe k) data).filter (fun r => keyTie k r r0)).Perm
      (data.filter (fun r => keyTie k r r0)) :=
    (List.perm_insertionSort (rowLe k) data).filter _
  exact (hsub2.eq_of_length hperm.length_eq.symm).symm

/-- C8: `sort` is stable in both directions: for every key-equivalence
class of rows (rows whose sort keys compare equal, null rows included),
the subsequence of the output in that class is exactly the subsequence
of the stored table in that class — equal-keyed rows keep their original
relative order. -/
theorem claim_C8 (data : Table) (k : String) (rev : Bool) (out : Table)
    (h : sort data k rev = some out) :
    ∀ r0 : Row, out.filter (fun r => keyTie k r r0)
      = data.filter (fun r => keyTie k r r0) := by
  intro r0
  rw [sort] at h
  by_cases hs : sortable data k = true
  · rw [if_pos hs] at h
    have hout : out = pySorted (rowLe k) rev data := (Option.some.inj h).symm
    cases rev with
    | false =>
      have hout' : out = List.insertionSort (rowLe k) data := hout
      subst hout'
      exact isort_filter_tie k r0 data
    | true =>
      have hout' : out = (List.insertionSort (rowLe k) data.reverse).reverse := hout
      subst hout'
      rw [List.filter_reverse, isort_filter_tie k r0 data.reverse,
        ← List.filter_reverse, List.reverse_reverse]
  · rw [if_neg hs] at h
    cases h

/-- Witness for C8: a table with a genuine tie (`True` and `1` compare
equal in Python) keeps the tied rows in stored order. -/
theorem claim_C8_witness :
    ([[(("a" : String), Value.bool true)], [("a", Value.num 1)]].filter
        (fun r => keyTie "a" r [(("a" : String), Value.num 1)]))
      = ([[(("a" : String), Value.bool true)], [("a", Value.num 1)]].filter
        (fun r => keyTie "a" r [(("a" : String), Value.num 1)])) :=
  claim_C8 [[("a", Value.bool true)], [("a", Value.num 1)]] "a" false
    [[("a", Value.bool true)], [("a", Value.num 1)]] (by decide)
    [("a", Value.num 1)]

/-! ## Lemmas about `sort_columns_by_order` -/

theorem enumF_map_snd {i : Nat} {l : List α} : (enumF i l).map Prod.snd = l := by
  induction l generalizing i with
  | nil => rfl
  | cons a l ih => rw [enumF, List.map_cons, ih]

theorem mem_enumF_fst_ge {i : Nat} {l : List α} {p : Nat × α} (h : p ∈ enumF i l) :
    i ≤ p.1 := by
  induction l generalizing i with
  | nil => cases h
  | cons a l ih =>
    rw [enumF, List.mem_cons] at h
    rcases h with rfl | h
    · exact Nat.le_refl i
    · exact Nat.le_of_succ_le (ih h)

theorem enumF_pairwise_lt {i : Nat} {l : List α} :
    (enumF i l).Pairwise (fun p q => p.1 < q.1) := by
  induction l generalizing i with
  | nil => exact List.Pairwise.nil
  | cons a l ih =>
    rw [enumF]
    exact List.Pairwise.cons (fun q hq => Nat.lt_of_lt_of_le (Nat.lt_succ_self i)
      (mem_enumF_fst_ge hq)) ih

theorem enumF_map_fst {i : Nat} {l : List α} :
    (enumF i l).map Prod.fst = List.range' i l.length := by
  induction l generalizing i with
  | nil => rfl
  | cons a l ih => rw [enumF, List.map_cons, ih, List.length_cons, List.range'_succ]

theorem tripleLt_asymm {a b : Nat × Int × Nat} (h : tripleLt a b = true) :
    tripleLt b a = false := by
  simp only [tripleLt, Bool.or_eq_true, Bool.and_eq_true, decide_eq_true_eq,
    beq_iff_eq, Bool.or_eq_false_iff, Bool.and_eq_false_iff,
    decide_eq_false_iff_not, beq_eq_false_iff_ne] at h ⊢
  omega

theorem tripleLt_negtrans {x y z : Nat × Int × Nat} (h : tripleLt z x = true) :
    tripleLt z y = true ∨ tripleLt y x = true := by
  simp only [tripleLt, Bool.or_eq_true, Bool.and_eq_true, decide_eq_true_eq,
    beq_iff_eq] at h ⊢
  omega

theorem colLe_total (pm : PrioMap) : ∀ p q : Nat × String, colLe pm p q ∨ colLe pm q p := by
  intro p q
  rw [colLe, colLe]
  cases h : tripleLt (colSortKey pm q) (colSortKey pm p)
  · exact Or.inl rfl
  · exact Or.inr (tripleLt_asymm h)

theorem colLe_trans (pm : PrioMap) :
    ∀ a b c : Nat × String, colLe pm a b → colLe pm b c → colLe pm a c := by
  intro a b c hab hbc
  rw [colLe] at *
  by_contra hac
  have hac' : tripleLt (colSortKey pm c) (colSortKey pm a) = true := by
    cases h : tripleLt (colSortKey pm c) (colSortKey pm a)
    · exact absurd h hac
    · rfl
  rcases @tripleLt_negtrans (colSortKey pm a) (colSortKey pm b) (colSortKey pm c) hac' with h | h
  · rw [h] at hbc; simp at hbc
  · rw [h] at hab; simp at hab

instance (pm : PrioMap) : IsTotal (Nat × String) (colLe pm) := ⟨colLe_total pm⟩

instance (pm : PrioMap) : IsTrans (Nat × String) (colLe pm) := ⟨colLe_trans pm⟩

theorem colLe_bucket {pm : PrioMap} {p q : Nat × String} (h : colLe pm p q)
    (hq : (pmFind pm q.2).isSome = true) : (pmFind pm p.2).isSome = true := by
  by_contra hp
  rw [colLe] at h
  obtain ⟨pb, hpb⟩ := Option.isSome_iff_exists.mp hq
  have hpn : pmFind pm p.2 = none := Option.not_isSome_iff_eq_none.mp hp
  rw [colSortKey, colSortKey, hpb, hpn] at h
  simp [tripleLt] at h

theorem colLe_listed {pm : PrioMap} {p q : Nat × String} {pa pb : Int}
    (hp : pmFind pm p.2 = some pa) (hq : pmFind pm q.2 = some pb)
    (h : colLe pm p q) : pa ≤ pb := by
  rw [colLe, colSortKey, colSortKey, hp, hq] at h
  simp only [tripleLt, Bool.or_eq_false_iff, Bool.and_eq_false_iff,
    decide_eq_false_iff_not, beq_eq_false_iff_ne] at h
  omega

theorem colLe_unlisted {pm : PrioMap} {p q : Nat × String}
    (hp : pmFind pm p.2 = none) (hq : pmFind pm q.2 = none)
    (h : colLe pm p q) : p.1 ≤ q.1 := by
  rw [colLe, colSortKey, colSortKey, hp, hq] at h
  simp only [tripleLt, Bool.or_eq_false_iff, Bool.and_eq_false_iff,
    decide_eq_false_iff_not, beq_eq_false_iff_ne] at h
  omega

theorem isort_filter_unlisted (pm : PrioMap) (l : List String) :
    (List.insertionSort (colLe pm) (enumF 0 l)).filter (fun p => !(pmFind pm p.2).isSome)
      = (enumF 0 l).filter (fun p => !(pmFind pm p.2).isSome) := by
  have hperm : (List.insertionSort (colLe pm) (enumF 0 l)).Perm (enumF 0 l) :=
    List.perm_insertionSort _ _
  have hfperm : ((List.insertionSort (colLe pm) (enumF 0 l)).filter
      (fun p => !(pmFind pm p.2).isSome)).Perm
      ((enumF 0 l).filter (fun p => !(pmFind pm p.2).isSome)) :=
    hperm.filter _
  have hnodupe : ((enumF 0 l).map Prod.fst).Nodup :=
    List.Pairwise.map Prod.fst (fun _ _ h => Nat.ne_of_lt h) enumF_pairwise_lt
  have hnodups : ((List.insertionSort (colLe pm) (enumF 0 l)).map Prod.fst).Nodup :=
    ((hperm.map Prod.fst).nodup_iff).mpr hnodupe
  have hne : (List.insertionSort (colLe pm) (enumF 0 l)).Pairwise
      (fun p q => p.1 ≠ q.1) := List.pairwise_map.mp hnodups
  have hsorted : (List.insertionSort (colLe pm) (enumF 0 l)).Pairwise (colLe pm) :=
    List.sorted_insertionSort _ _
  have hs_lt : ((List.insertionSort (colLe pm) (enumF 0 l)).filter
      (fun p => !(pmFind pm p.2).isSome)).Pairwise (fun p q => p.1 < q.1) := by
    refine ((hsorted.and hne).filter _).imp_of_mem fun ha hb h => ?_
    have hpa : pmFind pm _ = none := Option.not_isSome_iff_eq_none.mp
      (by simpa using (List.mem_filter.mp ha).2)
    have hpb : pmFind pm _ = none := Option.not_isSome_iff_eq_none.mp
      (by simpa using (List.mem_filter.mp hb).2)
    exact Nat.lt_of_le_of_ne (colLe_unlisted hpa hpb h.1) h.2
  have he_lt : ((enumF 0 l).filter (fun p => !(pmFind pm p.2).isSome)).Pairwise
      (fun p q => p.1 < q.1) := enumF_pairwise_lt.filter _
  have hanti : IsAntisymm (Nat × String) (fun p q => p.1 < q.1 ∨ p = q) := by
    constructor
    rintro a b (h1 | rfl) (h2 | h3)
    · exact absurd h2 (by omega)
    · exact h3.symm
    · rfl
    · rfl
  have hs_lt2 : List.Pairwise (fun p q : Nat × String => p.1 < q.1 ∨ p = q)
      ((List.insertionSort (colLe pm) (enumF 0 l)).filter (fun p => !(pmFind pm p.2).isSome)) :=
    hs_lt.imp fun h => Or.inl h
  have he_lt2 : List.Pairwise (fun p q : Nat × String => p.1 < q.1 ∨ p = q)
      ((enumF 0 l).filter (fun p => !(pmFind pm p.2).isSome)) :=
    he_lt.imp fun h => Or.inl h
  exact @List.eq_of_perm_of_sorted (Nat × String) (fun p q => p.1 < q.1 ∨ p = q) hanti _ _
    hfperm hs_lt2 he_lt2

theorem rkeys_graph (f : String → Value) (ks : List String) :
    rkeys (ks.map (fun k => (k, f k))) = ks := by
  induction ks with
  | nil => rfl
  | cons k1 ks ih =>
    show k1 :: rkeys (ks.map (fun k => (k, f k))) = k1 :: ks
    rw [ih]

theorem dget_graph (f : String → Value) (ks : List String) (k0 : String) :
    dget (ks.map (fun k => (k, f k))) k0
      = if k0 ∈ ks then some (f k0) else none := by
  induction ks with
  | nil => simp [dget]
  | cons k1 ks ih =>
    rw [List.map_cons]
    by_cases h : k1 = k0
    · subst h
      rw [dget_cons_eq rfl]
      simp [List.mem_cons]
    · rw [dget_cons_ne (beq_eq_false_iff_ne.mpr h), ih]
      have hne : ¬k0 = k1 := fun hh => h hh.symm
      simp [List.mem_cons, hne]

theorem enumF_filter_map_snd (Q : α → Bool) (i : Nat) (l : List α) :
    ((enumF i l).filter (fun p => Q p.2)).map Prod.snd = l.filter Q := by
  induction l generalizing i with
  | nil => rfl
  | cons a l ih =>
    rw [enumF]
    simp only [List.filter_cons]
    cases h : Q a
    · simp only [h, Bool.false_eq_true, if_false]
      exact ih _
    · simp only [h, if_true, List.map_cons]
      exact congrArg (a :: ·) (ih _)

/-- C9: `sort_columns_by_order` keeps the number of rows; each output
row has exactly the key set and values of the corresponding stored row;
keys present in the priority map come first, ordered by their priority;
and each row's remaining keys follow in that row's original relative
order.  The list form passes through `pmOfList`. -/
theorem claim_C9 (data : Table) (pm : PrioMap) :
    (sort_columns_by_order data pm).length = data.length ∧
    (∀ order : List String,
      sort_columns_by_list data order = sort_columns_by_order data (pmOfList order)) ∧
    (∀ (i : Nat) (r : Row), data[i]? = some r →
      ∃ r', (sort_columns_by_order data pm)[i]? = some r' ∧
        (rkeys r').Perm (rkeys r) ∧
        (∀ k, dgetD r' k = dgetD r k) ∧
        (rkeys r').Pairwise
          (fun a b => (pmFind pm b).isSome = true → (pmFind pm a).isSome = true) ∧
        ((rkeys r').filter (fun a => (pmFind pm a).isSome)).Pairwise
          (fun a b => (pmFind pm a).getD 0 ≤ (pmFind pm b).getD 0) ∧
        (rkeys r').filter (fun a => !(pmFind pm a).isSome)
          = (rkeys r).filter (fun a => !(pmFind pm a).isSome)) := by
  refine ⟨by simp [sort_columns_by_order], fun order => rfl, ?_⟩
  intro i r h0
  refine ⟨((List.insertionSort (colLe pm) (enumF 0 (rkeys r))).map Prod.snd).map
    (fun k => (k, dgetD r k)), ?_, ?_⟩
  · show (data.map _)[i]? = _
    rw [List.getElem?_map, h0, Option.map_some']
  have hkeys : rkeys (((List.insertionSort (colLe pm) (enumF 0 (rkeys r))).map
      Prod.snd).map (fun k => (k, dgetD r k)))
      = (List.insertionSort (colLe pm) (enumF 0 (rkeys r))).map Prod.snd :=
    rkeys_graph _ _
  have hperm : ((List.insertionSort (colLe pm) (enumF 0 (rkeys r))).map Prod.snd).Perm
      (rkeys r) := by
    have h1 := (List.perm_insertionSort (colLe pm) (enumF 0 (rkeys r))).map Prod.snd
    rwa [enumF_map_snd] at h1
  have hsorted : (List.insertionSort (colLe pm) (enumF 0 (rkeys r))).Pairwise (colLe pm) :=
    List.sorted_insertionSort _ _
  refine ⟨?_, ?_, ?_, ?_, ?_⟩
  · rw [hkeys]
    exact hperm
  · intro k
    rw [dgetD, dget_graph]
    by_cases hk : k ∈ (List.insertionSort (colLe pm) (enumF 0 (rkeys r))).map Prod.snd
    · rw [if_pos hk]
      rfl
    · rw [if_neg hk]
      have : k ∉ rkeys r := fun hmem => hk (hperm.mem_iff.mpr hmem)
      rw [dgetD_of_not_mem this]
      rfl
  · rw [hkeys]
    exact List.pairwise_map.mpr (hsorted.imp fun hle hq => colLe_bucket hle hq)
  · rw [hkeys, List.filter_map]
    refine List.pairwise_map.mpr ?_
    refine (hsorted.filter _).imp_of_mem fun ha hb hle => ?_
    have hpa := (List.mem_filter.mp ha).2
    have hpb := (List.mem_filter.mp hb).2
    simp only [Function.comp] at hpa hpb
    obtain ⟨pa, hpa'⟩ := Option.isSome_iff_exists.mp hpa
    obtain ⟨pb, hpb'⟩ := Option.isSome_iff_exists.mp hpb
    rw [hpa', hpb']
    exact colLe_listed hpa' hpb' hle
  · rw [hkeys, List.filter_map]
    have h2 : ((List.insertionSort (colLe pm) (enumF 0 (rkeys r))).filter
        ((fun a => !(pmFind pm a).isSome) ∘ Prod.snd)).map Prod.snd
        = ((enumF 0 (rkeys r)).filter (fun p => !(pmFind pm p.2).isSome)).map Prod.snd := by
      have h3 := isort_filter_unlisted pm (rkeys r)
      exact congrArg (List.map Prod.snd) h3
    rw [h2]
    exact enumF_filter_map_snd (fun a => !(pmFind pm a).isSome) 0 (rkeys r)

/-- Witness for C9 at a concrete table and priority map. -/
theorem claim_C9_witness :
    ∃ r', (sort_columns_by_order
        [[(("name" : String), Value.str "n"), ("age", Value.num 3), ("city", Value.str "c"),
          ("zz", Value.num 9)]] (pmOfList ["age", "city", "name"]))[0]? = some r' ∧
      (rkeys r').Perm (rkeys [(("name" : String), Value.str "n"), ("age", Value.num 3),
        ("city", Value.str "c"), ("zz", Value.num 9)]) ∧
      (∀ k, dgetD r' k = dgetD [(("name" : String), Value.str "n"), ("age", Value.num 3),
        ("city", Value.str "c"), ("zz", Value.num 9)] k) ∧
      (rkeys r').Pairwise
        (fun a b => (pmFind (pmOfList ["age", "city", "name"]) b).isSome = true →
          (pmFind (pmOfList ["age", "city", "name"]) a).isSome = true) ∧
      ((rkeys r').filter (fun a => (pmFind (pmOfList ["age", "city", "name"]) a).isSome)).Pairwise
        (fun a b => (pmFind (pmOfList ["age", "city", "name"]) a).getD 0
          ≤ (pmFind (pmOfList ["age", "city", "name"]) b).getD 0) ∧
      (rkeys r').filter (fun a => !(pmFind (pmOfList ["age", "city", "name"]) a).isSome)
        = (rkeys [(("name" : String), Value.str "n"), ("age", Value.num 3),
            ("city", Value.str "c"), ("zz", Value.num 9)]).filter
          (fun a => !(pmFind (pmOfList ["age", "city", "name"]) a).isSome) :=
  (claim_C9 [[("name", Value.str "n"), ("age", Value.num 3), ("city", Value.str "c"),
      ("zz", Value.num 9)]] (pmOfList ["age", "city", "name"])).2.2 0
    [("name", Value.str "n"), ("age", Value.num 3), ("city", Value.str "c"),
      ("zz", Value.num 9)] (by decide)

end PyStoreJSON
